import Mathlib

/-!
Verification of the Local Polynomial Approximation (LPA) attribute engine of
OpendTect-External-Attributes against its design specification.

Source files embedded here:
* `Python_3/Experimental/LocalPolynomialApproximation/ex_lpa_coef.py`
  (`lpa3D_init`, `sconvolve`)
* `Python_3/Experimental/LocalPolynomialApproximation/ex_lpa_eigenvals.py`
  (`lpa3D_init`, `doCompute` tensor assembly, `gam`, eigenvalue sorting)
* `Python_3/extlib.py` (`sconvolve`)

Python floats are embedded as real numbers; numpy arrays become functions or
Mathlib matrices indexed the same way the code indexes them.
-/

namespace LPAVerify

noncomputable section

open Matrix

/-! ### Geometry of `lpa3D_init`
`lpa3D_init(xs, ys, zs, sigma)` builds, for each axis of extent `n`,
the centred coordinates `np.linspace(-(n-1)/2, (n-1)/2, n)`; the `i`-th entry
is `i - (n-1)/2`. -/

/-- Coordinate of grid index `i` on an axis of extent `n`:
entry `i` of `np.linspace(-(n-1)/2, (n-1)/2, n)` (step is exactly 1). -/
def coord (n : ℕ) (i : ℕ) : ℝ := (i : ℝ) - ((n : ℝ) - 1) / 2

/-- The per-axis Gaussian scale of `lpa3D_init`: `sx = sigma * (xs - 1)`
(and likewise `sy`, `sz`). -/
def sAxis (sigma : ℝ) (n : ℕ) : ℝ := sigma * ((n : ℝ) - 1)

/-- The ten monomial columns of the design matrix, in the order used by
`np.dstack((np.ones(x.size), x, y, z, x*x, y*y, z*z, x*y, x*z, y*z))`. -/
def mono (m : Fin 10) (x y z : ℝ) : ℝ :=
  ![1, x, y, z, x * x, y * y, z * z, x * y, x * z, y * z] m

/-- Design matrix `A` of `lpa3D_init`: row per flattened grid point
(`meshgrid(..., indexing='ij')` keeps the `(i, j, k)` structure, which we
retain as the row index type), column per monomial. -/
def designA (xs ys zs : ℕ) : Matrix (Fin xs × Fin ys × Fin zs) (Fin 10) ℝ :=
  Matrix.of fun p m =>
    mono m (coord xs (p.1 : ℕ)) (coord ys (p.2.1 : ℕ)) (coord zs (p.2.2 : ℕ))

/-- Gaussian weight of a grid point:
`w = np.exp(-(x**2/(2*sx**2) + y**2/(2*sy**2) + z**2/(2*sz**2)))`. -/
def weight (xs ys zs : ℕ) (sigma : ℝ)
    (p : Fin xs × Fin ys × Fin zs) : ℝ :=
  Real.exp (-((coord xs (p.1 : ℕ)) ^ 2 / (2 * sAxis sigma xs ^ 2)
      + (coord ys (p.2.1 : ℕ)) ^ 2 / (2 * sAxis sigma ys ^ 2)
      + (coord zs (p.2.2 : ℕ)) ^ 2 / (2 * sAxis sigma zs ^ 2)))

/-- Diagonal weight matrix `W = np.diagflat(w)`. -/
def Wmat (xs ys zs : ℕ) (sigma : ℝ) :
    Matrix (Fin xs × Fin ys × Fin zs) (Fin xs × Fin ys × Fin zs) ℝ :=
  Matrix.diagonal (weight xs ys zs sigma)

/-- Weighted normal matrix `A.T.dot(W).dot(A)`, the 10×10 matrix that
`lpa3D_init` inverts. -/
def ATWA (xs ys zs : ℕ) (sigma : ℝ) : Matrix (Fin 10) (Fin 10) ℝ :=
  (designA xs ys zs)ᵀ * Wmat xs ys zs sigma * designA xs ys zs

/-- The deconvolution operator
`DB = np.linalg.inv(A.T.dot(W).dot(A)).dot(A.T).dot(W)` of `lpa3D_init`. -/
def DB (xs ys zs : ℕ) (sigma : ℝ) :
    Matrix (Fin 10) (Fin xs × Fin ys × Fin zs) ℝ :=
  (ATWA xs ys zs sigma)⁻¹ * (designA xs ys zs)ᵀ * Wmat xs ys zs sigma

namespace ExLpaCoef

/-- Embedding of `lpa3D_init` from `ex_lpa_coef.py` (lines 49-67): the result
of `DB.reshape((10, xs, ys, zs))`, kernel `k` at structured grid index `p`.
The reshape of the row-major flatten is the identity on the structured index. -/
def lpa3D_init (xs ys zs : ℕ) (sigma : ℝ) :
    Fin 10 → Fin xs × Fin ys × Fin zs → ℝ :=
  fun k p => DB xs ys zs sigma k p

/-- Value written into `result[i]` by `sconvolve` of `ex_lpa_coef.py`
(lines 75-91) for `i` in `range(Zf2, Z-Zf2)`; `result` is `np.zeros(Z)`,
so every index outside that range keeps the value 0. -/
def sconvolveEntry (X Y Z Xf Yf Zf : ℕ) (arr filt : ℕ → ℕ → ℕ → ℝ)
    (i : ℕ) : ℝ :=
  if Zf / 2 ≤ i ∧ i < Z - Zf / 2 then
    ∑ ii ∈ Finset.range Xf, ∑ jj ∈ Finset.range Yf, ∑ kk ∈ Finset.range Zf,
      filt (Xf - 1 - ii) (Yf - 1 - jj) (Zf - 1 - kk)
        * arr (X / 2 - Xf / 2 + ii) (Y / 2 - Yf / 2 + jj) (i - Zf / 2 + kk)
  else 0

/-- Embedding of `sconvolve(arr, filt)` from `ex_lpa_coef.py`: the returned
vector `result` of length `Z`. Shapes `(X, Y, Z)`/`(Xf, Yf, Zf)` are the
`arr.shape`/`filt.shape` the code reads; the arrays themselves are passed as
index functions. -/
def sconvolve (X Y Z Xf Yf Zf : ℕ) (arr filt : ℕ → ℕ → ℕ → ℝ) : List ℝ :=
  (List.range Z).map (sconvolveEntry X Y Z Xf Yf Zf arr filt)

end ExLpaCoef

namespace ExLpaEigenvals

/-- Embedding of `lpa3D_init` from `ex_lpa_eigenvals.py` (lines 57-75); the
source text is identical to the copy in `ex_lpa_coef.py`. -/
def lpa3D_init (xs ys zs : ℕ) (sigma : ℝ) :
    Fin 10 → Fin xs × Fin ys × Fin zs → ℝ :=
  fun k p => DB xs ys zs sigma k p

/-- Denominator of the mixing constant of `doCompute` in `ex_lpa_eigenvals.py`
(line 36): `8*((min(xs,ys,zs)-1)*wf)**2`. -/
def gamDenom (xs ys zs : ℕ) (wf : ℝ) : ℝ :=
  8 * ((((min xs (min ys zs) : ℕ) : ℝ) - 1) * wf) ^ 2

/-- Mixing constant `gam = 1/(8*((min(xs,ys,zs)-1)*wf)**2)` of `doCompute`
in `ex_lpa_eigenvals.py` (line 36). -/
def gam (xs ys zs : ℕ) (wf : ℝ) : ℝ := 1 / gamDenom xs ys zs wf

/-- Curvature block built by `doCompute` (line 42) for one sample:
`A = [[r4, r7/2, r8/2], [r7/2, r5, r9/2], [r8/2, r9/2, r6]]`. -/
def Ah (r : Fin 10 → ℝ) : Matrix (Fin 3) (Fin 3) ℝ :=
  !![r 4, r 7 / 2, r 8 / 2; r 7 / 2, r 5, r 9 / 2; r 8 / 2, r 9 / 2, r 6]

/-- Gradient column built by `doCompute` (line 44): `B = [[r1], [r2], [r3]]`. -/
def Bg (r : Fin 10 → ℝ) : Matrix (Fin 3) (Fin 1) ℝ := !![r 1; r 2; r 3]

/-- Orientation tensor of `doCompute` (lines 43-46):
`T = A·Aᵀ + gam·(B·Bᵀ)` for one sample. -/
def Tmat (r : Fin 10 → ℝ) (g : ℝ) : Matrix (Fin 3) (Fin 3) ℝ :=
  Ah r * (Ah r)ᵀ + g • (Bg r * (Bg r)ᵀ)

/-- Ascending sort of three reals, the effect of `np.sort` on the length-3
eigenvalue vector `w` in `doCompute` (line 48). -/
def sort3 (a b c : ℝ) : ℝ × ℝ × ℝ :=
  if a ≤ b then
    if b ≤ c then (a, b, c)
    else if a ≤ c then (a, c, b) else (c, a, b)
  else
    if a ≤ c then (b, a, c)
    else if b ≤ c then (b, c, a) else (c, b, a)

/-- Named outputs of `doCompute` (lines 48-51): with `v = np.sort(w)`,
`e1 = v[2]`, `e2 = v[1]`, `e3 = v[0]` — whatever 3-vector `w` the symmetric
eigensolver returned. -/
def eigenOutputs (w : Fin 3 → ℝ) : ℝ × ℝ × ℝ :=
  ((sort3 (w 0) (w 1) (w 2)).2.2,
   (sort3 (w 0) (w 1) (w 2)).2.1,
   (sort3 (w 0) (w 1) (w 2)).1)

end ExLpaEigenvals

namespace Extlib

/-- Value written into `result[i]` by `sconvolve` of `extlib.py`
(lines 128-145); the source text of the function is identical to the copy in
`ex_lpa_coef.py`. -/
def sconvolveEntry (X Y Z Xf Yf Zf : ℕ) (arr filt : ℕ → ℕ → ℕ → ℝ)
    (i : ℕ) : ℝ :=
  if Zf / 2 ≤ i ∧ i < Z - Zf / 2 then
    ∑ ii ∈ Finset.range Xf, ∑ jj ∈ Finset.range Yf, ∑ kk ∈ Finset.range Zf,
      filt (Xf - 1 - ii) (Yf - 1 - jj) (Zf - 1 - kk)
        * arr (X / 2 - Xf / 2 + ii) (Y / 2 - Yf / 2 + jj) (i - Zf / 2 + kk)
  else 0

/-- Embedding of `sconvolve(arr, filt)` from `extlib.py`. -/
def sconvolve (X Y Z Xf Yf Zf : ℕ) (arr filt : ℕ → ℕ → ℕ → ℝ) : List ℝ :=
  (List.range Z).map (sconvolveEntry X Y Z Xf Yf Zf arr filt)

end Extlib

/-- Parity of each monomial under the point reflection
(x, y, z) ↦ (-x, -y, -z): +1 for the even monomials (1, x², y², z², xy, xz,
yz), -1 for the three linear ones. -/
def parity : Fin 10 → ℝ := ![1, -1, -1, -1, 1, 1, 1, 1, 1, 1]

/-- Noiseless sampling of the degree-≤2 polynomial with coefficients `c` on
the integer grid of a block of shape (xs, ys, zs): the sample at grid index
(a, b, d) is the polynomial's value at that index's offsets from the block
centre (the same centred coordinates `lpa3D_init` uses). -/
def polyVal (xs ys zs : ℕ) (c : Fin 10 → ℝ) (a b d : ℕ) : ℝ :=
  c 0 + coord xs a * c 1 + coord ys b * c 2 + coord zs d * c 3
    + coord xs a * coord xs a * c 4 + coord ys b * coord ys b * c 5
    + coord zs d * coord zs d * c 6 + coord xs a * coord ys b * c 7
    + coord xs a * coord zs d * c 8 + coord ys b * coord zs d * c 9

/-- Kernel `k` of `lpa3D_init` as the ℕ-indexed array that `sconvolve`
reads (`sconvolve` only ever accesses indices inside the kernel's shape). -/
def kernelFun (xs ys zs : ℕ) (sigma : ℝ) (k : Fin 10) : ℕ → ℕ → ℕ → ℝ :=
  fun a b d =>
    if h : a < xs ∧ b < ys ∧ d < zs then
      ExLpaCoef.lpa3D_init xs ys zs sigma k (⟨a, h.1⟩, ⟨b, h.2.1⟩, ⟨d, h.2.2⟩)
    else 0

/-- Coefficient vector of the unit polynomial f(x, y, z) = z. -/
def zUnit : Fin 10 → ℝ := ![0, 0, 0, 1, 0, 0, 0, 0, 0, 0]

/-- Constant-1 test volume used to instantiate theorems at concrete inputs. -/
def oneFun : ℕ → ℕ → ℕ → ℝ := fun _ _ _ => 1

/-! ### Spec-modelled request/response boundary
The abstract `Configure`/`ComputeCoefficients` interface of spec sections 6-7
has no counterpart under `src/`; the scripts call `lpa3D_init`/`sconvolve`
directly with host-supplied parameters. The validation layer is modelled from
the spec's words. -/

/-- Modelled from the spec: the error taxonomy of section 7
(`ConfigurationError`, `SingularMatrixError`, `ShapeError`); no such errors
exist in the source scripts. -/
inductive LPAError
  | configurationError
  | singularMatrixError
  | shapeError

/-- Modelled from the spec: `Configure(window_extents, weight_factor)` of
section 6. Preconditions of section 4.1 are checked first (`weight_factor ≤ 0`
or `nx*ny*nz < 10` fail with `ConfigurationError` before any inversion is
attempted); a singular weighted normal matrix fails with
`SingularMatrixError`; otherwise the kernel set of `lpa3D_init` is returned. -/
def Configure (nx ny nz : ℕ) (wf : ℝ) :
    Except LPAError (Fin 10 → Fin nx × Fin ny × Fin nz → ℝ) :=
  if wf ≤ 0 ∨ nx * ny * nz < 10 then .error .configurationError
  else if (ATWA nx ny nz wf).det = 0 then .error .singularMatrixError
  else .ok (ExLpaCoef.lpa3D_init nx ny nz wf)

/-- Modelled from the spec: `ComputeCoefficients(KernelHandle, VolumeSample)`
of section 6. A block smaller than the configured window in any axis fails
with `ShapeError` (section 4.2 preconditions); otherwise each of the 10
kernels is applied by the centre-trace correlation `sconvolve`. -/
def ComputeCoefficients (Xf Yf Zf : ℕ) (kernel : Fin 10 → ℕ → ℕ → ℕ → ℝ)
    (X Y Z : ℕ) (arr : ℕ → ℕ → ℕ → ℝ) : Except LPAError (Fin 10 → List ℝ) :=
  if X < Xf ∨ Y < Yf ∨ Z < Zf then .error .shapeError
  else .ok fun k => Extlib.sconvolve X Y Z Xf Yf Zf arr (kernel k)


/-! ### Theorems -/

/-- Expansion of a sum over `Fin 10` into its ten terms. -/
lemma sum_univ_ten {M : Type*} [AddCommMonoid M] (f : Fin 10 → M) :
    ∑ i, f i = f 0 + f 1 + f 2 + f 3 + f 4 + f 5 + f 6 + f 7 + f 8 + f 9 := by
  rw [Fin.sum_univ_castSucc, Fin.sum_univ_castSucc, Fin.sum_univ_eight]
  rfl

/-- C7: the mixing constant is computed exactly as
gamma = 1/(8*((min(nx,ny,nz)-1)*sigma)^2) from the window extents and weight
factor; for nx = ny = nz = 5 and weight factor 0.2 it equals 0.1953125. -/
theorem C7_gamma_formula :
    (∀ (xs ys zs : ℕ) (wf : ℝ),
        ExLpaEigenvals.gam xs ys zs wf
          = 1 / (8 * ((((min xs (min ys zs) : ℕ) : ℝ) - 1) * wf) ^ 2)) ∧
    ExLpaEigenvals.gam 5 5 5 (0.2 : ℝ) = 0.1953125 := by
  constructor
  · intro xs ys zs wf
    rfl
  · norm_num [ExLpaEigenvals.gam, ExLpaEigenvals.gamDenom]

/-- C9: the per-axis weight divisor 2*(sigma*(n-1))^2 of `lpa3D_init` is zero
iff sigma = 0 or the axis extent is 1, and the gamma divisor
8*((min(xs,ys,zs)-1)*wf)^2 of `doCompute` is zero iff the smallest extent is 1
or wf = 0; extents ≥ 1 alone therefore do not rule out division by zero. -/
theorem C9_divisor_zero_iff :
    ∀ (n xs ys zs : ℕ) (sigma wf : ℝ),
      (2 * sAxis sigma n ^ 2 = 0 ↔ sigma = 0 ∨ n = 1) ∧
      (ExLpaEigenvals.gamDenom xs ys zs wf = 0 ↔ min xs (min ys zs) = 1 ∨ wf = 0) := by
  intro n xs ys zs sigma wf
  constructor
  · have h2 : 2 * sAxis sigma n ^ 2 = 0 ↔ sAxis sigma n = 0 := by
      constructor
      · intro h
        nlinarith [sq_nonneg (sAxis sigma n)]
      · intro h
        rw [h]
        ring
    rw [h2, sAxis, mul_eq_zero, sub_eq_zero, Nat.cast_eq_one]
  · have h8 : ExLpaEigenvals.gamDenom xs ys zs wf = 0
        ↔ (((min xs (min ys zs) : ℕ) : ℝ) - 1) * wf = 0 := by
      rw [ExLpaEigenvals.gamDenom]
      constructor
      · intro h
        nlinarith [sq_nonneg ((((min xs (min ys zs) : ℕ) : ℝ) - 1) * wf)]
      · intro h
        rw [h]
        ring
    rw [h8, mul_eq_zero, sub_eq_zero, Nat.cast_eq_one]

/-- C8: the duplicated implementations are extensionally equal: the two
copies of `lpa3D_init` return the same kernel set on all arguments, and the
two copies of `sconvolve` return the same profile on all arguments. -/
theorem C8_duplicates_equal :
    (∀ (xs ys zs : ℕ) (sigma : ℝ),
        ExLpaCoef.lpa3D_init xs ys zs sigma
          = ExLpaEigenvals.lpa3D_init xs ys zs sigma) ∧
    (∀ (X Y Z Xf Yf Zf : ℕ) (arr filt : ℕ → ℕ → ℕ → ℝ),
        ExLpaCoef.sconvolve X Y Z Xf Yf Zf arr filt
          = Extlib.sconvolve X Y Z Xf Yf Zf arr filt) :=
  ⟨fun _ _ _ _ => rfl, fun _ _ _ _ _ _ _ _ => rfl⟩

/-- C3: `Configure` with weight factor ≤ 0 or with window product < 10 fails
with `ConfigurationError` — the check precedes the singularity test of the
inversion step — and no kernel set is produced. -/
theorem C3_configure_rejected :
    ∀ (nx ny nz : ℕ) (wf : ℝ), wf ≤ 0 ∨ nx * ny * nz < 10 →
      Configure nx ny nz wf = .error .configurationError := by
  intro nx ny nz wf h
  rw [Configure, if_pos h]

/-- C3 witness: a 1×1×1 window (product 1 < 10) is rejected. -/
theorem C3_configure_rejected_witness :
    ((0.2 : ℝ) ≤ 0 ∨ (1 : ℕ) * 1 * 1 < 10) ∧
      Configure 1 1 1 (0.2 : ℝ) = .error .configurationError :=
  ⟨Or.inr (by norm_num),
   C3_configure_rejected 1 1 1 (0.2 : ℝ) (Or.inr (by norm_num))⟩

/-- C4: `ComputeCoefficients` on a block smaller than the configured window
in any axis fails with `ShapeError` and produces no output. -/
theorem C4_compute_rejected_shape :
    ∀ (Xf Yf Zf : ℕ) (kernel : Fin 10 → ℕ → ℕ → ℕ → ℝ) (X Y Z : ℕ)
      (arr : ℕ → ℕ → ℕ → ℝ), X < Xf ∨ Y < Yf ∨ Z < Zf →
      ComputeCoefficients Xf Yf Zf kernel X Y Z arr = .error .shapeError := by
  intro Xf Yf Zf kernel X Y Z arr h
  rw [ComputeCoefficients, if_pos h]

/-- C4 witness: a block of x-extent 2 under a 3×3×3 window is rejected. -/
theorem C4_compute_rejected_shape_witness :
    ((2 : ℕ) < 3 ∨ (3 : ℕ) < 3 ∨ (7 : ℕ) < 3) ∧
      ComputeCoefficients 3 3 3 (fun _ => oneFun) 2 3 7 oneFun
        = .error .shapeError :=
  ⟨Or.inl (by norm_num),
   C4_compute_rejected_shape 3 3 3 (fun _ => oneFun) 2 3 7 oneFun
     (Or.inl (by norm_num))⟩


/-- Index lookup in the profile returned by `sconvolve` (`ex_lpa_coef.py`
copy): entry `i` of the length-`Z` result vector. -/
lemma sconvolve_getD (X Y Z Xf Yf Zf : ℕ) (arr filt : ℕ → ℕ → ℕ → ℝ)
    {i : ℕ} (h : i < Z) :
    (ExLpaCoef.sconvolve X Y Z Xf Yf Zf arr filt).getD i 0
      = ExLpaCoef.sconvolveEntry X Y Z Xf Yf Zf arr filt i := by
  rw [ExLpaCoef.sconvolve, List.getD_eq_getElem?_getD, List.getElem?_map,
    List.getElem?_range h]
  rfl

/-- Index lookup in the profile returned by `sconvolve` (`extlib.py` copy). -/
lemma extlib_sconvolve_getD (X Y Z Xf Yf Zf : ℕ) (arr filt : ℕ → ℕ → ℕ → ℝ)
    {i : ℕ} (h : i < Z) :
    (Extlib.sconvolve X Y Z Xf Yf Zf arr filt).getD i 0
      = Extlib.sconvolveEntry X Y Z Xf Yf Zf arr filt i := by
  rw [Extlib.sconvolve, List.getD_eq_getElem?_getD, List.getElem?_map,
    List.getElem?_range h]
  rfl

/-- C2: for a block at least as large as the kernel, every z in the valid
range [Zf/2, Z-Zf/2) of the output equals the flipped-kernel correlation
anchored at the block's central (x, y) position; and for a kernel of z-extent
3 on a block of z-extent 7 the valid range is exactly the indices 1..5. -/
theorem C2_sconvolve_center_trace :
    (∀ (X Y Z Xf Yf Zf : ℕ) (arr filt : ℕ → ℕ → ℕ → ℝ) (i : ℕ),
        Xf ≤ X → Yf ≤ Y → Zf ≤ Z → Zf / 2 ≤ i → i < Z - Zf / 2 →
        (ExLpaCoef.sconvolve X Y Z Xf Yf Zf arr filt).getD i 0
          = ∑ ii ∈ Finset.range Xf, ∑ jj ∈ Finset.range Yf,
              ∑ kk ∈ Finset.range Zf,
                filt (Xf - 1 - ii) (Yf - 1 - jj) (Zf - 1 - kk)
                  * arr (X / 2 - Xf / 2 + ii) (Y / 2 - Yf / 2 + jj)
                      (i - Zf / 2 + kk)) ∧
    (∀ i : ℕ, ((3 : ℕ) / 2 ≤ i ∧ i < 7 - (3 : ℕ) / 2) ↔ (1 ≤ i ∧ i < 6)) := by
  constructor
  · intro X Y Z Xf Yf Zf arr filt i _ _ _ h1 h2
    have hZ : i < Z := lt_of_lt_of_le h2 (Nat.sub_le Z (Zf / 2))
    rw [sconvolve_getD X Y Z Xf Yf Zf arr filt hZ, ExLpaCoef.sconvolveEntry,
      if_pos ⟨h1, h2⟩]
  · intro i
    norm_num

/-- C2 witness: a 3×3×3 all-ones kernel on a 3×3×7 all-ones block gives 27 at
the valid index 1. -/
theorem C2_sconvolve_center_trace_witness :
    ((3 : ℕ) ≤ 3 ∧ (3 : ℕ) ≤ 7 ∧ (3 : ℕ) / 2 ≤ 1 ∧ 1 < 7 - (3 : ℕ) / 2) ∧
      (ExLpaCoef.sconvolve 3 3 7 3 3 3 oneFun oneFun).getD 1 0 = 27 := by
  refine ⟨⟨le_refl 3, by norm_num, by norm_num, by norm_num⟩, ?_⟩
  rw [C2_sconvolve_center_trace.1 3 3 7 3 3 3 oneFun oneFun 1
    (le_refl 3) (le_refl 3) (by norm_num) (by norm_num) (by norm_num)]
  norm_num [oneFun]

/-- C10: both copies of the centre-trace correlation return a vector of
length exactly Z in which every position outside the valid range
[Zf/2, Z-Zf/2) is exactly 0 (zero-initialised, never written). -/
theorem C10_zeros_outside_range :
    ∀ (X Y Z Xf Yf Zf : ℕ) (arr filt : ℕ → ℕ → ℕ → ℝ),
      (ExLpaCoef.sconvolve X Y Z Xf Yf Zf arr filt).length = Z ∧
      (Extlib.sconvolve X Y Z Xf Yf Zf arr filt).length = Z ∧
      ∀ i : ℕ, i < Z → (i < Zf / 2 ∨ Z - Zf / 2 ≤ i) →
        (ExLpaCoef.sconvolve X Y Z Xf Yf Zf arr filt).getD i 0 = 0 ∧
        (Extlib.sconvolve X Y Z Xf Yf Zf arr filt).getD i 0 = 0 := by
  intro X Y Z Xf Yf Zf arr filt
  refine ⟨?_, ?_, ?_⟩
  · rw [ExLpaCoef.sconvolve, List.length_map, List.length_range]
  · rw [Extlib.sconvolve, List.length_map, List.length_range]
  · intro i hZ hout
    have hcond : ¬ (Zf / 2 ≤ i ∧ i < Z - Zf / 2) := by
      intro hc
      rcases hout with h | h
      · omega
      · omega
    constructor
    · rw [sconvolve_getD X Y Z Xf Yf Zf arr filt hZ,
        ExLpaCoef.sconvolveEntry, if_neg hcond]
    · rw [extlib_sconvolve_getD X Y Z Xf Yf Zf arr filt hZ,
        Extlib.sconvolveEntry, if_neg hcond]

/-- C10 witness: with Zf = 3 and Z = 7 the profile has length 7 and its
entry at the out-of-range index 0 is exactly 0. -/
theorem C10_zeros_outside_range_witness :
    (ExLpaCoef.sconvolve 3 3 7 3 3 3 oneFun oneFun).length = 7 ∧
      ((0 : ℕ) < 7 ∧ ((0 : ℕ) < 3 / 2 ∨ 7 - (3 : ℕ) / 2 ≤ 0)) ∧
      (ExLpaCoef.sconvolve 3 3 7 3 3 3 oneFun oneFun).getD 0 0 = 0 := by
  refine ⟨(C10_zeros_outside_range 3 3 7 3 3 3 oneFun oneFun).1,
    ⟨by norm_num, Or.inl (by norm_num)⟩, ?_⟩
  exact ((C10_zeros_outside_range 3 3 7 3 3 3 oneFun oneFun).2.2 0
    (by norm_num) (Or.inl (by norm_num))).1


/-- A nonnegative scalar multiple of a positive semidefinite real matrix is
positive semidefinite. -/
lemma posSemidef_smul_nonneg {n : ℕ} {M : Matrix (Fin n) (Fin n) ℝ}
    (hM : M.PosSemidef) {c : ℝ} (hc : 0 ≤ c) : (c • M).PosSemidef := by
  constructor
  · show (c • M)ᴴ = c • M
    rw [Matrix.conjTranspose_smul, star_trivial, hM.1]
  · intro x
    rw [Matrix.smul_mulVec_assoc, Matrix.dotProduct_smul, smul_eq_mul]
    exact mul_nonneg hc (hM.2 x)

/-- The orientation tensor is Hermitian (symmetric) for every gamma, even
without the sign condition. -/
lemma Tmat_isHermitian (r : Fin 10 → ℝ) (g : ℝ) :
    (ExLpaEigenvals.Tmat r g).IsHermitian := by
  show (ExLpaEigenvals.Tmat r g)ᴴ = ExLpaEigenvals.Tmat r g
  rw [Matrix.conjTranspose_eq_transpose_of_trivial, ExLpaEigenvals.Tmat,
    Matrix.transpose_add, Matrix.transpose_smul, Matrix.transpose_mul,
    Matrix.transpose_mul, Matrix.transpose_transpose,
    Matrix.transpose_transpose]

/-- C5: for every coefficient vector r and every gamma ≥ 0 the assembled
orientation tensor T = Ah·Ahᵀ + gamma·(g·gᵀ) is symmetric and positive
semidefinite, so its three (real) eigenvalues are all nonnegative. -/
theorem C5_tensor_psd :
    ∀ (r : Fin 10 → ℝ) (g : ℝ), 0 ≤ g →
      (ExLpaEigenvals.Tmat r g).IsSymm ∧
      (ExLpaEigenvals.Tmat r g).PosSemidef ∧
      ∀ i : Fin 3, 0 ≤ (Tmat_isHermitian r g).eigenvalues i := by
  intro r g hg
  have h1 : (ExLpaEigenvals.Ah r * (ExLpaEigenvals.Ah r)ᵀ).PosSemidef := by
    have h := Matrix.posSemidef_self_mul_conjTranspose (ExLpaEigenvals.Ah r)
    rwa [Matrix.conjTranspose_eq_transpose_of_trivial] at h
  have h2 : (ExLpaEigenvals.Bg r * (ExLpaEigenvals.Bg r)ᵀ).PosSemidef := by
    have h := Matrix.posSemidef_self_mul_conjTranspose (ExLpaEigenvals.Bg r)
    rwa [Matrix.conjTranspose_eq_transpose_of_trivial] at h
  have hpsd : (ExLpaEigenvals.Tmat r g).PosSemidef :=
    h1.add (posSemidef_smul_nonneg h2 hg)
  have hsym : (ExLpaEigenvals.Tmat r g).IsSymm := by
    have h := hpsd.1
    rwa [Matrix.IsHermitian, Matrix.conjTranspose_eq_transpose_of_trivial] at h
  exact ⟨hsym, hpsd, fun i => hpsd.eigenvalues_nonneg i⟩

/-- C5 witness: the tensor of the all-ones coefficient vector with gamma = 0
is positive semidefinite and its smallest-index eigenvalue is nonnegative. -/
theorem C5_tensor_psd_witness :
    (0 : ℝ) ≤ 0 ∧ (ExLpaEigenvals.Tmat (fun _ => 1) 0).PosSemidef ∧
      0 ≤ (Tmat_isHermitian (fun _ => 1) 0).eigenvalues 0 :=
  ⟨le_refl 0, (C5_tensor_psd (fun _ => 1) 0 (le_refl 0)).2.1,
   (C5_tensor_psd (fun _ => 1) 0 (le_refl 0)).2.2 0⟩

/-- C6: the named outputs (e1, e2, e3) of the eigenvalue variant satisfy
e1 ≥ e2 ≥ e3 and are exactly the eigensolver's three values sorted in
descending order (same multiset). -/
theorem C6_eigen_outputs_sorted :
    ∀ w : Fin 3 → ℝ,
      (ExLpaEigenvals.eigenOutputs w).2.1 ≤ (ExLpaEigenvals.eigenOutputs w).1 ∧
      (ExLpaEigenvals.eigenOutputs w).2.2 ≤ (ExLpaEigenvals.eigenOutputs w).2.1 ∧
      ({(ExLpaEigenvals.eigenOutputs w).1, (ExLpaEigenvals.eigenOutputs w).2.1,
          (ExLpaEigenvals.eigenOutputs w).2.2} : Multiset ℝ) = {w 0, w 1, w 2} := by
  intro w
  have swap12 : ∀ x y z : ℝ, ({x, y, z} : Multiset ℝ) = {y, x, z} :=
    fun x y z => Multiset.cons_swap x y {z}
  have swap23 : ∀ x y z : ℝ, ({x, y, z} : Multiset ℝ) = {x, z, y} :=
    fun x y z => congrArg (Multiset.cons x) (Multiset.cons_swap y z 0)
  unfold ExLpaEigenvals.eigenOutputs ExLpaEigenvals.sort3
  by_cases h1 : w 0 ≤ w 1
  · by_cases h2 : w 1 ≤ w 2
    · simp only [if_pos h1, if_pos h2]
      exact ⟨h2, h1, ((swap12 _ _ _).trans (swap23 _ _ _)).trans (swap12 _ _ _)⟩
    · by_cases h3 : w 0 ≤ w 2
      · simp only [if_pos h1, if_neg h2, if_pos h3]
        exact ⟨le_of_not_le h2, h3, (swap23 _ _ _).trans (swap12 _ _ _)⟩
      · simp only [if_pos h1, if_neg h2, if_neg h3]
        exact ⟨h1, le_of_not_le h3, swap12 _ _ _⟩
  · by_cases h4 : w 0 ≤ w 2
    · simp only [if_neg h1, if_pos h4]
      exact ⟨h4, le_of_not_le h1, (swap12 _ _ _).trans (swap23 _ _ _)⟩
    · by_cases h5 : w 1 ≤ w 2
      · simp only [if_neg h1, if_neg h4, if_pos h5]
        exact ⟨le_of_not_le h4, h5, swap23 _ _ _⟩
      · simp only [if_neg h1, if_neg h4, if_neg h5]
        exact ⟨le_of_not_le h1, le_of_not_le h5, trivial⟩


/-- Whenever the weighted normal matrix AᵀWA that `lpa3D_init` inverts is
invertible, the deconvolution operator D = (AᵀWA)⁻¹AᵀW is a left inverse of
the design matrix: D·A = I. -/
lemma DB_mul_designA (xs ys zs : ℕ) (sigma : ℝ)
    (h : IsUnit (ATWA xs ys zs sigma).det) :
    DB xs ys zs sigma * designA xs ys zs = 1 := by
  have h2 := Matrix.nonsing_inv_mul (ATWA xs ys zs sigma) h
  have hassoc : ATWA xs ys zs sigma
      = (designA xs ys zs)ᵀ * (Wmat xs ys zs sigma * designA xs ys zs) :=
    Matrix.mul_assoc _ _ _
  rw [DB, Matrix.mul_assoc, Matrix.mul_assoc, ← hassoc]
  exact h2


/-- Evaluation of the monomial vector at each of its ten indices. -/
lemma mono_val0 (x y z : ℝ) : mono 0 x y z = 1 := rfl

lemma mono_val1 (x y z : ℝ) : mono 1 x y z = x := rfl

lemma mono_val2 (x y z : ℝ) : mono 2 x y z = y := rfl

lemma mono_val3 (x y z : ℝ) : mono 3 x y z = z := rfl

lemma mono_val4 (x y z : ℝ) : mono 4 x y z = x * x := rfl

lemma mono_val5 (x y z : ℝ) : mono 5 x y z = y * y := rfl

lemma mono_val6 (x y z : ℝ) : mono 6 x y z = z * z := rfl

lemma mono_val7 (x y z : ℝ) : mono 7 x y z = x * y := rfl

lemma mono_val8 (x y z : ℝ) : mono 8 x y z = x * z := rfl

lemma mono_val9 (x y z : ℝ) : mono 9 x y z = y * z := rfl

/-- A row of `designA` applied to a coefficient vector is the value at the
grid point of the degree-≤2 polynomial with those coefficients. -/
lemma mulVec_designA (xs ys zs : ℕ) (c : Fin 10 → ℝ)
    (p : Fin xs × Fin ys × Fin zs) :
    (designA xs ys zs *ᵥ c) p
      = polyVal xs ys zs c (p.1 : ℕ) (p.2.1 : ℕ) (p.2.2 : ℕ) := by
  show ∑ m, designA xs ys zs p m * c m = _
  rw [sum_univ_ten]
  simp only [designA, Matrix.of_apply, mono_val0, mono_val1, mono_val2,
    mono_val3, mono_val4, mono_val5, mono_val6, mono_val7, mono_val8,
    mono_val9, polyVal]
  ring

/-- On the 3×3×3 window (coordinates -1, 0, 1 on each axis) the design matrix
has full column rank: only the zero coefficient vector samples to zero. -/
lemma designA_three_inj : ∀ c : Fin 10 → ℝ, designA 3 3 3 *ᵥ c = 0 → c = 0 := by
  intro c h
  have e : ∀ i j k : Fin 3, polyVal 3 3 3 c (i : ℕ) (j : ℕ) (k : ℕ) = 0 := by
    intro i j k
    have hp := congrFun h (i, j, k)
    rw [mulVec_designA] at hp
    exact hp
  have q000 := e 1 1 1
  have qx1 := e 2 1 1
  have qx0 := e 0 1 1
  have qy1 := e 1 2 1
  have qy0 := e 1 0 1
  have qz1 := e 1 1 2
  have qz0 := e 1 1 0
  have qxy := e 2 2 1
  have qxz := e 2 1 2
  have qyz := e 1 2 2
  norm_num [polyVal, coord, Fin.val_zero, Fin.val_one, Fin.val_two]
    at q000 qx1 qx0 qy1 qy0 qz1 qz0 qxy qxz qyz
  have hc0 : c 0 = 0 := by linarith
  have hc1 : c 1 = 0 := by linarith
  have hc2 : c 2 = 0 := by linarith
  have hc3 : c 3 = 0 := by linarith
  have hc4 : c 4 = 0 := by linarith
  have hc5 : c 5 = 0 := by linarith
  have hc6 : c 6 = 0 := by linarith
  have hc7 : c 7 = 0 := by linarith
  have hc8 : c 8 = 0 := by linarith
  have hc9 : c 9 = 0 := by linarith
  funext m
  fin_cases m
  · exact hc0
  · exact hc1
  · exact hc2
  · exact hc3
  · exact hc4
  · exact hc5
  · exact hc6
  · exact hc7
  · exact hc8
  · exact hc9


/-- Whenever the design matrix has full column rank, the weighted normal
matrix AᵀWA of `lpa3D_init` is positive definite (the Gaussian weights are
strictly positive). -/
lemma ATWA_posDef {xs ys zs : ℕ} (sigma : ℝ)
    (hinj : ∀ c : Fin 10 → ℝ, designA xs ys zs *ᵥ c = 0 → c = 0) :
    (ATWA xs ys zs sigma).PosDef := by
  constructor
  · show (ATWA xs ys zs sigma)ᴴ = ATWA xs ys zs sigma
    rw [Matrix.conjTranspose_eq_transpose_of_trivial]
    simp only [ATWA, Wmat]
    rw [Matrix.transpose_mul, Matrix.transpose_mul, Matrix.transpose_transpose,
      Matrix.diagonal_transpose, Matrix.mul_assoc]
  · intro x hx
    have hy : designA xs ys zs *ᵥ x ≠ 0 := fun h0 => hx (hinj x h0)
    have hrw : dotProduct (star x) (ATWA xs ys zs sigma *ᵥ x)
        = dotProduct (designA xs ys zs *ᵥ x)
            (Wmat xs ys zs sigma *ᵥ (designA xs ys zs *ᵥ x)) := by
      rw [star_trivial, ATWA, ← Matrix.mulVec_mulVec, ← Matrix.mulVec_mulVec,
        Matrix.dotProduct_mulVec, Matrix.vecMul_transpose]
    rw [hrw]
    obtain ⟨p, hp⟩ := Function.ne_iff.mp hy
    have hterm : ∀ q, (designA xs ys zs *ᵥ x) q
          * ((Wmat xs ys zs sigma *ᵥ (designA xs ys zs *ᵥ x)) q)
        = weight xs ys zs sigma q
            * ((designA xs ys zs *ᵥ x) q * (designA xs ys zs *ᵥ x) q) := by
      intro q
      rw [Wmat, Matrix.mulVec_diagonal]
      ring
    unfold dotProduct
    refine Finset.sum_pos' (fun q _ => ?_) ⟨p, Finset.mem_univ p, ?_⟩
    · rw [hterm q]
      exact mul_nonneg (Real.exp_pos _).le (mul_self_nonneg _)
    · rw [hterm p]
      refine mul_pos (Real.exp_pos _) (mul_self_pos.mpr ?_)
      simpa using hp

/-- A positive definite real matrix has nonzero determinant: a zero
determinant would give a nonzero null vector, contradicting strict
positivity of the quadratic form. -/
lemma posDef_det_ne_zero {n : ℕ} {M : Matrix (Fin n) (Fin n) ℝ}
    (hM : M.PosDef) : M.det ≠ 0 := by
  intro h0
  obtain ⟨v, hv, hMv⟩ := Matrix.exists_mulVec_eq_zero_iff.mpr h0
  have hpos := hM.2 v hv
  rw [hMv, Matrix.dotProduct_zero] at hpos
  exact lt_irrefl 0 hpos

/-- Evaluation of the parity vector at each index. -/
lemma parity_val0 : parity 0 = 1 := rfl

lemma parity_val1 : parity 1 = -1 := rfl

lemma parity_val2 : parity 2 = -1 := rfl

lemma parity_val3 : parity 3 = -1 := rfl

lemma parity_val4 : parity 4 = 1 := rfl

lemma parity_val5 : parity 5 = 1 := rfl

lemma parity_val6 : parity 6 = 1 := rfl

lemma parity_val7 : parity 7 = 1 := rfl

lemma parity_val8 : parity 8 = 1 := rfl

lemma parity_val9 : parity 9 = 1 := rfl

/-- Reflecting a grid index across the window centre negates its centred
coordinate. -/
lemma coord_reflect (n a : ℕ) (h : a < n) :
    coord n (n - 1 - a) = -coord n a := by
  unfold coord
  rw [Nat.cast_sub (by omega : a ≤ n - 1), Nat.cast_sub (by omega : 1 ≤ n)]
  push_cast
  ring

/-- Sampling a degree-≤2 polynomial at the mirror image of a grid point is
sampling the parity-adjusted polynomial at the point itself: the reflection
negates the three linear monomials and fixes the even ones. -/
lemma polyVal_reflect (xs ys zs : ℕ) (c : Fin 10 → ℝ) (a b d : ℕ)
    (ha : a < xs) (hb : b < ys) (hd : d < zs) :
    polyVal xs ys zs c (xs - 1 - a) (ys - 1 - b) (zs - 1 - d)
      = polyVal xs ys zs (fun m => parity m * c m) a b d := by
  unfold polyVal
  rw [coord_reflect xs a ha, coord_reflect ys b hb, coord_reflect zs d hd]
  simp only [parity_val0, parity_val1, parity_val2, parity_val3, parity_val4,
    parity_val5, parity_val6, parity_val7, parity_val8, parity_val9]
  ring

/-- The centre-trace correlation applies the kernel with all three indices
reversed, so on a noiseless polynomial sampling it recovers the
parity-adjusted coefficients: for a window with odd z-extent 2w+1 and a
block of the window's size, the output at the centre index w of kernel k is
parity(k)·ck whenever AᵀWA is invertible. -/
lemma sconv_center_parity (xs ys zs w : ℕ) (sigma : ℝ)
    (hzs : zs = 2 * w + 1)
    (hdet : IsUnit (ATWA xs ys zs sigma).det)
    (c : Fin 10 → ℝ) (k : Fin 10) :
    (Extlib.sconvolve xs ys zs xs ys zs
        (polyVal xs ys zs c)
        (kernelFun xs ys zs sigma k)).getD w 0
      = parity k * c k := by
  subst hzs
  have hw : w < 2 * w + 1 := by omega
  rw [extlib_sconvolve_getD xs ys (2 * w + 1) xs ys (2 * w + 1)
      (polyVal xs ys (2 * w + 1) c) (kernelFun xs ys (2 * w + 1) sigma k) hw,
    Extlib.sconvolveEntry,
    if_pos (by omega :
      (2 * w + 1) / 2 ≤ w ∧ w < 2 * w + 1 - (2 * w + 1) / 2)]
  have e1 : ∀ ii : ℕ, xs / 2 - xs / 2 + ii = ii := fun ii => by omega
  have e2 : ∀ jj : ℕ, ys / 2 - ys / 2 + jj = jj := fun jj => by omega
  have e3 : ∀ kk : ℕ, w - (2 * w + 1) / 2 + kk = kk := fun kk => by omega
  simp only [e1, e2, e3]
  have hfinal : (DB xs ys (2 * w + 1) sigma *ᵥ
      (designA xs ys (2 * w + 1) *ᵥ fun m => parity m * c m)) k
      = parity k * c k := by
    rw [Matrix.mulVec_mulVec, DB_mul_designA xs ys (2 * w + 1) sigma hdet,
      Matrix.one_mulVec]
  rw [← hfinal]
  show _ = ∑ p : Fin xs × Fin ys × Fin (2 * w + 1),
      DB xs ys (2 * w + 1) sigma k p
        * (designA xs ys (2 * w + 1) *ᵥ fun m => parity m * c m) p
  simp only [← Finset.sum_product']
  refine Finset.sum_bij'
    (fun q hq =>
      ((⟨xs - 1 - q.1, by
          simp only [Finset.mem_product, Finset.mem_range] at hq; omega⟩ :
            Fin xs),
       (⟨ys - 1 - q.2.1, by
          simp only [Finset.mem_product, Finset.mem_range] at hq; omega⟩ :
            Fin ys),
       (⟨2 * w + 1 - 1 - q.2.2, by
          simp only [Finset.mem_product, Finset.mem_range] at hq; omega⟩ :
            Fin (2 * w + 1))))
    (fun p _ =>
      (xs - 1 - (p.1 : ℕ), ys - 1 - (p.2.1 : ℕ), 2 * w + 1 - 1 - (p.2.2 : ℕ)))
    (fun q hq => Finset.mem_univ _)
    ?_ ?_ ?_ ?_
  · intro p _
    have h1 := p.1.isLt
    have h2 := p.2.1.isLt
    have h3 := p.2.2.isLt
    simp only [Finset.mem_product, Finset.mem_range]
    omega
  · intro q hq
    obtain ⟨q1, q2, q3⟩ := q
    simp only [Finset.mem_product, Finset.mem_range] at hq
    obtain ⟨h1, h2, h3⟩ := hq
    dsimp only
    simp only [Prod.mk.injEq]
    omega
  · intro p _
    obtain ⟨p1, p2, p3⟩ := p
    have h1 := p1.isLt
    have h2 := p2.isLt
    have h3 := p3.isLt
    dsimp only
    simp only [Prod.mk.injEq, Fin.ext_iff]
    omega
  · intro q hq
    obtain ⟨q1, q2, q3⟩ := q
    simp only [Finset.mem_product, Finset.mem_range] at hq
    obtain ⟨h1, h2, h3⟩ := hq
    dsimp only
    have hb : xs - 1 - q1 < xs ∧ ys - 1 - q2 < ys
        ∧ 2 * w + 1 - 1 - q3 < 2 * w + 1 := by omega
    rw [kernelFun, dif_pos hb, mulVec_designA]
    have hds1 : xs - 1 - (xs - 1 - q1) = q1 := by omega
    have hds2 : ys - 1 - (ys - 1 - q2) = q2 := by omega
    have hds3 : 2 * w + 1 - 1 - (2 * w + 1 - 1 - q3) = q3 := by omega
    have hrefl : polyVal xs ys (2 * w + 1) c q1 q2 q3
        = polyVal xs ys (2 * w + 1) (fun m => parity m * c m)
            (xs - 1 - q1) (ys - 1 - q2) (2 * w + 1 - 1 - q3) := by
      have h := polyVal_reflect xs ys (2 * w + 1) c
        (xs - 1 - q1) (ys - 1 - q2) (2 * w + 1 - 1 - q3)
        (by omega) (by omega) (by omega)
      rw [hds1, hds2, hds3] at h
      exact h
    rw [hrefl]
    rfl

/-- C1 (amended): for every window (nx, ny, 2w+1) — the scripts only build
odd z-extents — and every sigma > 0 such that the weighted normal matrix
AᵀWA of `lpa3D_init` is invertible, the kernel set satisfies D·A = I, and
applying kernel k by the centre-trace correlation `sconvolve` to a noiseless
sampling of the degree-≤2 polynomial with coefficients (c0..c9) yields
parity(k)·ck at the window centre, parity = (+1, -1, -1, -1, +1, ..., +1):
the even-monomial kernels reproduce exactly 1 on their unit polynomial and
recover c0, c4..c9 exactly (in particular r0 = k and r1..r9 = 0 for a
constant volume of value k), while the index-reversed correlation mirrors
the window, so the three linear kernels reproduce -1 and r1..r3 = -c1..-c3. -/
theorem C1_exactness :
    ∀ (xs ys zs w : ℕ) (sigma : ℝ), zs = 2 * w + 1 → 0 < sigma →
      IsUnit (ATWA xs ys zs sigma).det →
      DB xs ys zs sigma * designA xs ys zs = 1 ∧
      ∀ (c : Fin 10 → ℝ) (k : Fin 10),
        (Extlib.sconvolve xs ys zs xs ys zs
            (polyVal xs ys zs c)
            (kernelFun xs ys zs sigma k)).getD w 0
          = parity k * c k := by
  intro xs ys zs w sigma hzs _ hdet
  exact ⟨DB_mul_designA xs ys zs sigma hdet,
    fun c k => sconv_center_parity xs ys zs w sigma hzs hdet c k⟩

/-- C1 (amended) witness: on the 3×3×3 window with the default weight factor
0.2 the normal matrix is invertible, D·A = I holds, and applying kernel 3 by
the centre-trace correlation to the noiseless sampling of f(x,y,z) = z gives
exactly -1 at the centre. -/
theorem C1_exactness_witness :
    (0 < (0.2 : ℝ) ∧ IsUnit (ATWA 3 3 3 (0.2 : ℝ)).det) ∧
      DB 3 3 3 (0.2 : ℝ) * designA 3 3 3 = 1 ∧
      (Extlib.sconvolve 3 3 3 3 3 3 (polyVal 3 3 3 zUnit)
          (kernelFun 3 3 3 (0.2 : ℝ) 3)).getD 1 0 = -1 := by
  have hu : IsUnit (ATWA 3 3 3 (0.2 : ℝ)).det :=
    (posDef_det_ne_zero (ATWA_posDef (0.2 : ℝ) designA_three_inj)).isUnit
  have h := C1_exactness 3 3 3 1 (0.2 : ℝ) (by norm_num) (by norm_num) hu
  refine ⟨⟨by norm_num, hu⟩, h.1, ?_⟩
  calc (Extlib.sconvolve 3 3 3 3 3 3 (polyVal 3 3 3 zUnit)
          (kernelFun 3 3 3 (0.2 : ℝ) 3)).getD 1 0
      = parity 3 * zUnit 3 := h.2 zUnit 3
    _ = -1 := by
        have hp : parity 3 = -1 := rfl
        have hz : zUnit 3 = 1 := rfl
        rw [hp, hz]
        norm_num

/-- Coefficient vector of the polynomial 1 - 4x², which vanishes at every
grid point of a window of x-extent 2 (coordinates ±1/2). -/
def cexVec : Fin 10 → ℝ := ![1, 0, 0, 0, -4, 0, 0, 0, 0, 0]

lemma cexVec_val0 : cexVec 0 = 1 := rfl

lemma cexVec_val1 : cexVec 1 = 0 := rfl

lemma cexVec_val2 : cexVec 2 = 0 := rfl

lemma cexVec_val3 : cexVec 3 = 0 := rfl

lemma cexVec_val4 : cexVec 4 = -4 := rfl

lemma cexVec_val5 : cexVec 5 = 0 := rfl

lemma cexVec_val6 : cexVec 6 = 0 := rfl

lemma cexVec_val7 : cexVec 7 = 0 := rfl

lemma cexVec_val8 : cexVec 8 = 0 := rfl

lemma cexVec_val9 : cexVec 9 = 0 := rfl

/-- C1 counterexample, two prongs. First, the window (2, 2, 3) has
2·2·3 = 12 ≥ 10 points and a positive weight factor, yet its x² design
column is constant, the weighted normal matrix is singular (`np.linalg.inv`
has no inverse to return) and D·A = I fails, so nx·ny·nz ≥ 10 does not give
exactness. Second, even on the invertible 3×3×3 window, applying kernel 3
by the centre-trace correlation to the noiseless sampling of the unit
polynomial f(x,y,z) = z yields -1 at the window centre, not the claimed 1:
the correlation's index reversal negates the linear coefficients. -/
theorem C1_counterexample :
    ((10 ≤ 2 * 2 * 3 ∧ 0 < (0.2 : ℝ)) ∧
      (ATWA 2 2 3 (0.2 : ℝ)).det = 0 ∧
      DB 2 2 3 (0.2 : ℝ) * designA 2 2 3 ≠ 1) ∧
    (IsUnit (ATWA 3 3 3 (0.2 : ℝ)).det ∧
      (Extlib.sconvolve 3 3 3 3 3 3 (polyVal 3 3 3 zUnit)
          (kernelFun 3 3 3 (0.2 : ℝ) 3)).getD 1 0 = -1 ∧
      (Extlib.sconvolve 3 3 3 3 3 3 (polyVal 3 3 3 zUnit)
          (kernelFun 3 3 3 (0.2 : ℝ) 3)).getD 1 0 ≠ 1) := by
  have hu3 : IsUnit (ATWA 3 3 3 (0.2 : ℝ)).det :=
    (posDef_det_ne_zero (ATWA_posDef (0.2 : ℝ) designA_three_inj)).isUnit
  have happly : (Extlib.sconvolve 3 3 3 3 3 3 (polyVal 3 3 3 zUnit)
      (kernelFun 3 3 3 (0.2 : ℝ) 3)).getD 1 0 = -1 := by
    calc (Extlib.sconvolve 3 3 3 3 3 3 (polyVal 3 3 3 zUnit)
            (kernelFun 3 3 3 (0.2 : ℝ) 3)).getD 1 0
        = parity 3 * zUnit 3 :=
          sconv_center_parity 3 3 3 1 (0.2 : ℝ) (by norm_num) hu3 zUnit 3
      _ = -1 := by
          have hp : parity 3 = -1 := rfl
          have hz : zUnit 3 = 1 := rfl
          rw [hp, hz]
          norm_num
  refine ⟨?_, hu3, happly, by rw [happly]; norm_num⟩
  have hv : designA 2 2 3 *ᵥ cexVec = 0 := by
    funext p
    obtain ⟨i, j, k⟩ := p
    show (designA 2 2 3 *ᵥ cexVec) (i, j, k) = 0
    rw [mulVec_designA]
    dsimp only
    unfold polyVal
    simp only [cexVec_val0, cexVec_val1, cexVec_val2, cexVec_val3,
      cexVec_val4, cexVec_val5, cexVec_val6, cexVec_val7, cexVec_val8,
      cexVec_val9]
    have hx : coord 2 (i : ℕ) * coord 2 (i : ℕ) = 1 / 4 := by
      fin_cases i <;> norm_num [coord]
    rw [hx]
    ring
  have hATWAv : ATWA 2 2 3 (0.2 : ℝ) *ᵥ cexVec = 0 := by
    rw [ATWA, ← Matrix.mulVec_mulVec, hv, Matrix.mulVec_zero]
  have hne : cexVec ≠ 0 := by
    intro h0
    have h1 := congrFun h0 0
    rw [cexVec_val0] at h1
    exact one_ne_zero h1
  have hdet : (ATWA 2 2 3 (0.2 : ℝ)).det = 0 := by
    rw [← Matrix.exists_mulVec_eq_zero_iff]
    exact ⟨cexVec, hne, hATWAv⟩
  have hinv : (ATWA 2 2 3 (0.2 : ℝ))⁻¹ = 0 :=
    Matrix.nonsing_inv_apply_not_isUnit _ (by rw [hdet]; exact not_isUnit_zero)
  have hDB : DB 2 2 3 (0.2 : ℝ) = 0 := by
    rw [DB, hinv, Matrix.zero_mul, Matrix.zero_mul]
  refine ⟨⟨by norm_num, by norm_num⟩, hdet, ?_⟩
  rw [hDB, Matrix.zero_mul]
  intro h01
  have h00 := congrFun (congrFun h01 0) 0
  rw [Matrix.zero_apply, Matrix.one_apply_eq] at h00
  exact zero_ne_one h00

end

end LPAVerify






